import Mathlib

/-!
# Word-occurrence counter (`CMPSC_472_Cunningham_PRJ1.c`): embedding and properties

A shallow embedding of the C program and machine-checked statements about it.

Conventions of the embedding

* A byte is a natural number; `0` is the C string terminator NUL and `10` is
  the newline. A `char` array is the list of its bytes; the C string it holds
  is `cstr`, the bytes before the first NUL.
* A `const char *` into a string is the suffix of the string it points at.
* Loops that the C code does not bound (`while` over `strstr`, `while` over
  `fgets`) take a `fuel` argument: one unit per evaluation of the loop
  condition, and `none` stands for "has not returned within the fuel".
* Inside a worker process `int` and `long` values are naturals: a count never
  exceeds the number of bytes scanned (`count_word_in_buffer_loop_le`) and a
  range bound never exceeds the file size, so on files of fewer than `2^31`
  bytes the C arithmetic stays in range and agrees with the naturals.
* In the parent, `int file_word_count` and `int total_word_count` are
  integers wrapped into 32 bits by `wrapInt` at every store and addition.
* A file is the list of its bytes, `none` when `fopen` fails on it. A stream
  is the pair of the file and the position `ftell` reports.
-/

namespace WordCount

/-! ## Constants -/

/-- `#define NUM_FILES 7` -/
def NUM_FILES : Nat := 7

/-- `#define NUM_THREADS 4` -/
def NUM_THREADS : Nat := 4

/-- `#define BUFFER_SIZE 1024` -/
def BUFFER_SIZE : Nat := 1024

/-- `EXIT_SUCCESS` -/
def EXIT_SUCCESS : Nat := 0

/-- `EXIT_FAILURE` -/
def EXIT_FAILURE : Nat := 1

/-- The newline byte. -/
def NL : Nat := 10

/-- `INT_MAX` for the 32-bit `int` of the program. -/
def INT_MAX : Int := 2147483647

/-- The value a 32-bit `int` holds when the mathematical result of an
addition, or the value stored into it, is `x`: two's-complement wrap-around
into `[-2^31, 2^31)`. -/
def wrapInt (x : Int) : Int := (x + 2147483648) % 4294967296 - 2147483648

/-! ## C strings and the library functions the program calls -/

/-- The C string stored in a `char` array: the bytes before the first NUL. -/
def cstr (mem : List Nat) : List Nat :=
  mem.takeWhile (fun b => b != 0)

/-- `strlen` of a C string given by its bytes. -/
def strlen (s : List Nat) : Nat := s.length

/-- `strstr(haystack, needle)`: the suffix of `haystack` that starts at the
first occurrence of `needle`, `none` for `NULL`. An empty needle is found at
the start of any haystack. -/
def strstr : List Nat → List Nat → Option (List Nat)
  | [], needle => if needle.isPrefixOf [] then some [] else none
  | c :: t, needle =>
    if needle.isPrefixOf (c :: t) then some (c :: t) else strstr t needle

/-! ## `count_word_in_buffer` -/

/-- The loop of `count_word_in_buffer`:
`while ((tmp = strstr(tmp, word)) != NULL) { count++; tmp += strlen(word); }`,
on the state `(tmp, count)`. -/
def count_word_in_buffer_loop (word : List Nat) : Nat → List Nat → Nat → Option Nat
  | 0, _, _ => none
  | fuel + 1, tmp, count =>
    match strstr tmp word with
    | none => some count
    | some m => count_word_in_buffer_loop word fuel (m.drop (strlen word)) (count + 1)

/-- `int count_word_in_buffer(const char *buffer, const char *word)`. -/
def count_word_in_buffer (fuel : Nat) (buffer word : List Nat) : Option Nat :=
  count_word_in_buffer_loop (cstr word) fuel (cstr buffer) 0

/-! ## Specification side: the greedy non-overlapping scan -/

/-- The greedy left-to-right scan of the specification. The cursor is at
offset `i` of the buffer, the remaining bytes are the list argument, and
`skip` counts the bytes of the last match that the cursor has still to pass.
With nothing to pass, a match of `P` at the cursor is recorded and consumed;
otherwise the cursor moves one byte. The result is the list of offsets of the
recorded matches. -/
def greedyMatches (P : List Nat) : List Nat → Nat → Nat → List Nat
  | [], _, _ => []
  | _ :: t, i, skip + 1 => greedyMatches P t (i + 1) skip
  | c :: t, i, 0 =>
    if P.isPrefixOf (c :: t) then i :: greedyMatches P t (i + 1) (P.length - 1)
    else greedyMatches P t (i + 1) 0

/-- Number of non-overlapping left-to-right matches of `P` in `B`. -/
def nonOverlappingCount (B P : List Nat) : Nat :=
  (greedyMatches P B 0 0).length

/-! ## Streams: `fseek`, `ftell`, `fgets` -/

/-- The bytes one `fgets` call stores when it may store at most `k` of them:
it stops after a newline, at the end of the file, or when `k` bytes are
stored. -/
def readLine : Nat → List Nat → List Nat
  | 0, _ => []
  | _, [] => []
  | k + 1, c :: t => if c = NL then [c] else c :: readLine k t

/-- `fgets(buffer, n, file)` on a stream over `content` at position `pos`:
`none` for `NULL` (end of file, nothing read), otherwise the bytes stored in
`buffer` before the terminator and the new position of the stream. -/
def fgets (n : Nat) (content : List Nat) (pos : Nat) : Option (List Nat × Nat) :=
  match content.drop pos with
  | [] => none
  | c :: t => some (readLine (n - 1) (c :: t), pos + (readLine (n - 1) (c :: t)).length)

/-! ## `count_words`: the chunk worker -/

/-- `ThreadData`, without the file name: the worker receives the file it
opens as an argument of its own. -/
structure ThreadData where
  /-- Field `long start`. -/
  start : Nat
  /-- Field `long end`. -/
  end_ : Nat
  /-- Field `const char *word_to_count`. -/
  word_to_count : List Nat
deriving DecidableEq, Repr

/-- The read loop of `count_words`:
`while (ftell(file) < data->end && fgets(buffer, BUFFER_SIZE, file) != NULL)
   local_count += count_word_in_buffer(buffer, data->word_to_count);`
on the state `(ftell(file), local_count)`. -/
def count_words_loop (word content : List Nat) (end_ : Nat) : Nat → Nat → Nat → Option Nat
  | 0, _, _ => none
  | fuel + 1, pos, local_count =>
    if pos < end_ then
      match fgets BUFFER_SIZE content pos with
      | none => some local_count
      | some (buffer, pos') =>
        match count_word_in_buffer fuel buffer word with
        | none => none
        | some c => count_words_loop word content end_ fuel pos' (local_count + c)
    else some local_count

/-- The buffers the read loop of `count_words` passes to
`count_word_in_buffer`, in order: the same loop, recording the reads. -/
def count_words_reads (content : List Nat) (end_ : Nat) : Nat → Nat → List (List Nat)
  | 0, _ => []
  | fuel + 1, pos =>
    if pos < end_ then
      match fgets BUFFER_SIZE content pos with
      | none => []
      | some (buffer, pos') => buffer :: count_words_reads content end_ fuel pos'
    else []

/-- `void* count_words(void *arg)`: what the worker adds to `word_count`.
When `fopen` fails the worker returns before the add, which leaves
`word_count` as adding 0 does. `none`: the worker never reaches the add. -/
def count_words (fuel : Nat) (file : Option (List Nat)) (data : ThreadData) : Option Nat :=
  match file with
  | none => some 0
  | some content =>
    count_words_loop data.word_to_count content data.end_ fuel data.start 0

/-- The locked section of the workers,
`pthread_mutex_lock; word_count += local_count; pthread_mutex_unlock`, run by
the workers in the order `order` (worker indices, in the order in which they
take the mutex). -/
def add_local_counts (local_counts : List Nat) (order : List Nat) (word_count : Nat) : Nat :=
  order.foldl (fun wc i => wc + local_counts.getD i 0) word_count

/-! ## `process_file`: the file scanner -/

/-- `long chunk_size = file_size / NUM_THREADS;` -/
def chunk_size (file_size : Nat) : Nat := file_size / NUM_THREADS

/-- The `thread_data[i]` that the launch loop of `process_file` fills in. -/
def thread_data_at (file_size : Nat) (word : List Nat) (i : Nat) : ThreadData :=
  { start := i * chunk_size file_size
    end_ := if i = NUM_THREADS - 1 then file_size else (i + 1) * chunk_size file_size
    word_to_count := word }

/-- The array `thread_data` after the launch loop. -/
def thread_data (file_size : Nat) (word : List Nat) : List ThreadData :=
  (List.range NUM_THREADS).map (thread_data_at file_size word)

/-- The launch loop of `process_file`,
`for (i = 0; i < NUM_THREADS; i++) { ...; pthread_create(...); }`:
the indices of the workers that were started, given which calls of
`pthread_create` succeed. The return value of `pthread_create` is dropped, so
the loop has no exit other than `i == NUM_THREADS`. -/
def launch_threads (create_ok : Nat → Bool) : List Nat → List Nat → List Nat
  | [], started => started
  | i :: rest, started =>
    launch_threads create_ok rest (if create_ok i then started ++ [i] else started)

/-- All results of a list of computations, `none` if one of them has none. -/
def collect : List (Option Nat) → Option (List Nat)
  | [] => some []
  | none :: _ => none
  | some a :: t => (collect t).map (fun l => a :: l)

/-- How a call of `process_file` ends. -/
inductive ProcResult
  /-- The call of `exit(code)` after a failed `fopen`. -/
  | exits (code : Nat)
  /-- A `pthread_join` never returns. -/
  | hangs
  /-- The join loop reaches a `pthread_t` that `pthread_create` did not
  set; `started` are the workers that were started. -/
  | undefinedJoin (started : List Nat)
  /-- The function returns, leaving `word_count` at this value. -/
  | returns (word_count : Nat)
deriving DecidableEq, Repr

/-- `void process_file(const char *filename, const char *word_to_count)` as
a function of the file behind `filename`, of which `pthread_create` calls
succeed, of the order in which the workers take the mutex, and of the value
of the global `word_count` on entry. -/
def process_file (fuel : Nat) (file : Option (List Nat)) (word : List Nat)
    (create_ok : Nat → Bool) (order : List Nat) (word_count : Nat) : ProcResult :=
  match file with
  | none => .exits EXIT_FAILURE
  | some content =>
    if launch_threads create_ok (List.range NUM_THREADS) [] = List.range NUM_THREADS then
      match collect ((thread_data content.length word).map (count_words fuel file)) with
      | none => .hangs
      | some local_counts => .returns (add_local_counts local_counts order word_count)
    else .undefinedJoin (launch_threads create_ok (List.range NUM_THREADS) [])

/-- The order in which the workers take the mutex when each finishes before
the next is scheduled. -/
def inOrder : List Nat := List.range NUM_THREADS

/-- Every `pthread_create` succeeds. -/
def allCreated : Nat → Bool := fun _ => true

/-! ## `main`: dispatcher and coordinator -/

/-- The array `files` of `main`. -/
def files : List String :=
  ["bib.txt", "paper1.txt", "paper2.txt", "progc.txt", "progl.txt", "progp.txt", "trans.txt"]

/-- What `main` takes from its environment. -/
structure Env where
  /-- The token `scanf("%s", word_to_count)` stores. -/
  word : List Nat
  /-- The file behind a name, `none` when `fopen` fails on it. -/
  fs : String → Option (List Nat)
  /-- Whether `pipe(pipes[i])` succeeds. -/
  pipe_ok : Nat → Bool
  /-- Whether the `fork()` of iteration `i` succeeds. -/
  fork_ok : Nat → Bool
  /-- Whether `pthread_create` succeeds for thread `j` of child `i`. -/
  create_ok : Nat → Nat → Bool
  /-- The order in which the workers of child `i` take the mutex. -/
  order : Nat → List Nat

/-- What the parent can observe of a child process. -/
inductive ChildResult
  /-- The child wrote `n` to its pipe and called `exit(EXIT_SUCCESS)`. -/
  | wrote (n : Nat)
  /-- The child called `exit(code)` before it wrote to its pipe. -/
  | exited (code : Nat)
  /-- The child never writes and never exits. -/
  | hangs
  /-- The child ran into undefined behaviour. -/
  | undefined
deriving DecidableEq, Repr

/-- The child branch of `main` for file `i`:
`word_count = 0; process_file(files[i], word_to_count); write(...); exit(EXIT_SUCCESS);` -/
def child (fuel : Nat) (env : Env) (i : Nat) (name : String) : ChildResult :=
  match process_file fuel (env.fs name) env.word (env.create_ok i) (env.order i) 0 with
  | .exits code => .exited code
  | .hangs => .hangs
  | .undefinedJoin _ => .undefined
  | .returns word_count => .wrote word_count

/-- The first loop of `main` over the indices `i`: `pipe`, then `fork`, each
followed by `exit(EXIT_FAILURE)` when it fails. `Except.error forked`: the
parent exited with `EXIT_FAILURE` after forking the children `forked`;
`Except.ok forked`: the loop ran to its end. -/
def launch_children (env : Env) : List Nat → List Nat → Except (List Nat) (List Nat)
  | [], forked => .ok forked
  | i :: rest, forked =>
    if env.pipe_ok i then
      if env.fork_ok i then launch_children env rest (forked ++ [i])
      else .error forked
    else .error forked

/-- How a run of `main` ends in the parent. The counts are the values of
the `int` variables `file_word_count` and `total_word_count`. -/
inductive MainResult
  /-- The parent called `exit(code)` in the first loop, after forking the
  children `forked`; nothing was reported. -/
  | aborted (code : Nat) (forked : List Nat)
  /-- A `read` never returns; `printed` are the lines reported before it. -/
  | blocked (printed : List (String × Int))
  /-- A child ran into undefined behaviour. -/
  | undefined (printed : List (String × Int))
  /-- The parent returned `code` from `main` after reporting the per-file
  lines `printed` and the total `total`. -/
  | returned (code : Nat) (printed : List (String × Int)) (total : Int)
deriving DecidableEq, Repr

/-- The second loop of `main`, over the children in file order:
`int file_word_count = 0; read(pipes[i][0], &file_word_count, sizeof(int));
 total_word_count += file_word_count; printf(...)`.
The `int` that arrives from a child whose `word_count` is `n` is `wrapInt n`,
and the addition to the `int` total wraps as well. A `read` on the pipe of a
child that exited without writing returns 0 and leaves `file_word_count`
at 0. The state is `(total_word_count, printed)`. -/
def read_results : List (String × ChildResult) → Int → List (String × Int) → MainResult
  | [], total_word_count, printed => .returned 0 printed total_word_count
  | (name, .wrote n) :: rest, total_word_count, printed =>
    read_results rest (wrapInt (total_word_count + wrapInt n)) (printed ++ [(name, wrapInt n)])
  | (name, .exited _) :: rest, total_word_count, printed =>
    read_results rest (wrapInt (total_word_count + 0)) (printed ++ [(name, 0)])
  | (_, .hangs) :: _, _, printed => .blocked printed
  | (_, .undefined) :: _, _, printed => .undefined printed

/-- The children of a run, with the names of their files, in file order. -/
def children (fuel : Nat) (env : Env) (names : List String) : List (String × ChildResult) :=
  (List.range names.length).zipWith (fun i name => (name, child fuel env i name)) names

/-- The function `main` over the file list `names` (`files` in the program). -/
def main_on (fuel : Nat) (env : Env) (names : List String) : MainResult :=
  match launch_children env (List.range names.length) [] with
  | .error forked => .aborted EXIT_FAILURE forked
  | .ok _ => read_results (children fuel env names) 0 []

/-- `int main()`. -/
def main (fuel : Nat) (env : Env) : MainResult := main_on fuel env files

/-- The number of matches of the greedy scan of `B` with `skip` bytes of a
match still to pass. -/
def scanCount (P B : List Nat) (skip : Nat) : Nat := (greedyMatches P B 0 skip).length

/-! ## Specification side: aligned splits and lines -/

/-- The pattern `P` occurs in `F` at offset `i`. -/
def occursAt (P F : List Nat) (i : Nat) : Bool := P.isPrefixOf (F.drop i)

/-- The boundary between the bytes `b - 1` and `b` of `F` falls inside an
occurrence of `P`: an occurrence starts before `b` and ends after `b`. -/
def insideOccurrence (P F : List Nat) (b : Nat) : Bool :=
  (List.range b).any (fun i => occursAt P F i && decide (b < i + P.length))

/-- No chunk boundary that `process_file` computes for `F` falls inside an
occurrence of `P` in `F`. -/
def alignedSplit (P F : List Nat) : Bool :=
  (thread_data F.length P).all (fun d => !insideOccurrence P F d.start)

/-- The lines of a file, each with its newline; the last line may lack one. -/
def splitLines : List Nat → List (List Nat)
  | [] => []
  | c :: t =>
    if c = NL then [c] :: splitLines t
    else
      match splitLines t with
      | [] => [[c]]
      | l :: ls => (c :: l) :: ls

/-- The first line of a file, with its newline if it has one. -/
def firstLine : List Nat → List Nat
  | [] => []
  | c :: t => if c = NL then [c] else c :: firstLine t

/-! ## Files and environments used in the examples -/

/-- The file holding the one line `xab xab xab xab` and its newline. -/
def fileXab : List Nat :=
  [120, 97, 98, 32, 120, 97, 98, 32, 120, 97, 98, 32, 120, 97, 98, 10]

/-- The file holding the one line `the cat sat on the mat` and its newline. -/
def fileCatSatMat : List Nat :=
  [116, 104, 101, 32, 99, 97, 116, 32, 115, 97, 116, 32, 111, 110, 32, 116, 104, 101, 32, 109, 97, 116, 10]


/-- The word `a`, every file but `bib.txt` holding the line `a`, and
`bib.txt` missing; every `pipe`, `fork` and `pthread_create` succeeds. -/
def envMissingFile : Env :=
  { word := [97]
    fs := fun name => if name = "bib.txt" then none else some [97, 10]
    pipe_ok := fun _ => true
    fork_ok := fun _ => true
    create_ok := fun _ _ => true
    order := fun _ => inOrder }

/-- The word `a`, every file holding the line `a`, and the first
`pthread_create` of the first child failing. -/
def envCreateFails : Env :=
  { word := [97]
    fs := fun _ => some [97, 10]
    pipe_ok := fun _ => true
    fork_ok := fun _ => true
    create_ok := fun i j => !(i == 0 && j == 0)
    order := fun _ => inOrder }

/-- The word `a`, every file holding the four lines `a`, `a`, `aa`, `b` (the
last without a newline), every system call succeeding. -/
def envSchedule : Env :=
  { word := [97]
    fs := fun _ => some [97, 10, 97, 10, 97, 97, 10, 98]
    pipe_ok := fun _ => true
    fork_ok := fun _ => true
    create_ok := fun _ _ => true
    order := fun _ => inOrder }

/-! ## Lemmas on C strings and `strstr` -/

theorem cstr_eq_self {B : List Nat} (h : ∀ b ∈ B, b ≠ 0) : cstr B = B := by
  unfold cstr
  rw [List.takeWhile_eq_self_iff]
  intro b hb
  simpa using h b hb

theorem cstr_nul_free (mem : List Nat) : ∀ b ∈ cstr mem, b ≠ 0 := by
  intro b hb
  have := List.mem_takeWhile_imp hb
  simpa using this

/-- A non-empty word is not found in the empty string. -/
theorem strstr_nil {P : List Nat} (hP : P ≠ []) : strstr [] P = none := by
  cases P with
  | nil => exact absurd rfl hP
  | cons a t => rfl

theorem strstr_cons_match {P : List Nat} {c : Nat} {t : List Nat}
    (h : P.isPrefixOf (c :: t) = true) : strstr (c :: t) P = some (c :: t) := by
  simp [strstr, h]

theorem strstr_cons_skip {P : List Nat} {c : Nat} {t : List Nat}
    (h : P.isPrefixOf (c :: t) = false) : strstr (c :: t) P = strstr t P := by
  simp [strstr, h]

/-- An empty word is found at the start of every string. -/
theorem strstr_empty (B : List Nat) : strstr B [] = some B := by
  cases B <;> simp [strstr]

/-! ## Lemmas on the greedy scan -/

/-- Passing `k` bytes of a match is dropping them from the buffer. -/
theorem greedyMatches_skip (P : List Nat) :
    ∀ (B : List Nat) (i k : Nat),
      greedyMatches P B i k = greedyMatches P (B.drop k) (i + k) 0
  | [], i, k => by cases k <;> simp [greedyMatches]
  | c :: t, i, 0 => by simp
  | c :: t, i, k + 1 => by
    rw [greedyMatches, greedyMatches_skip P t (i + 1) k]
    simp only [List.drop_succ_cons]
    congr 1
    omega

/-- The number of matches does not depend on the offset of the cursor. -/
theorem greedyMatches_length_offset (P : List Nat) :
    ∀ (B : List Nat) (i j k : Nat),
      (greedyMatches P B i k).length = (greedyMatches P B j k).length
  | [], i, j, k => by simp [greedyMatches]
  | c :: t, i, j, k + 1 => by
    rw [greedyMatches, greedyMatches]
    exact greedyMatches_length_offset P t _ _ k
  | c :: t, i, j, 0 => by
    rw [greedyMatches, greedyMatches]
    split
    · simp only [List.length_cons]
      rw [greedyMatches_length_offset P t (i + 1) (j + 1)]
    · exact greedyMatches_length_offset P t _ _ 0

theorem scanCount_nil (P : List Nat) (k : Nat) : scanCount P [] k = 0 := by
  simp [scanCount, greedyMatches]

theorem scanCount_cons_skip (P : List Nat) (c : Nat) (t : List Nat) (k : Nat) :
    scanCount P (c :: t) (k + 1) = scanCount P t k := by
  simp only [scanCount, greedyMatches]
  exact greedyMatches_length_offset P t _ _ k

theorem scanCount_cons_match {P : List Nat} {c : Nat} {t : List Nat}
    (h : P.isPrefixOf (c :: t) = true) :
    scanCount P (c :: t) 0 = scanCount P t (P.length - 1) + 1 := by
  simp only [scanCount, greedyMatches, h, if_true, List.length_cons]
  rw [greedyMatches_length_offset P t (0 + 1) 0]

theorem scanCount_cons_nomatch {P : List Nat} {c : Nat} {t : List Nat}
    (h : P.isPrefixOf (c :: t) = false) :
    scanCount P (c :: t) 0 = scanCount P t 0 := by
  simp only [scanCount, greedyMatches, h]
  exact greedyMatches_length_offset P t _ _ 0

theorem scanCount_skip (P B : List Nat) (k : Nat) :
    scanCount P B k = scanCount P (B.drop k) 0 := by
  unfold scanCount
  rw [greedyMatches_skip P B 0 k]
  exact greedyMatches_length_offset P _ _ _ 0

theorem nonOverlappingCount_eq_scanCount (B P : List Nat) :
    nonOverlappingCount B P = scanCount P B 0 := rfl

/-! ## The greedy scan records non-overlapping occurrences, leftmost first -/

theorem isPrefixOf_nil_of_ne {P : List Nat} (hP : P ≠ []) (j : Nat) :
    P.isPrefixOf (([] : List Nat).drop j) = false := by
  cases P with
  | nil => exact absurd rfl hP
  | cons a t => simp

/-- Every recorded offset is at or after the cursor and is the start of an
occurrence of the word. -/
theorem greedyMatches_sound (P : List Nat) :
    ∀ (B : List Nat) (off k i : Nat), i ∈ greedyMatches P B off k →
      off + k ≤ i ∧ P.isPrefixOf (B.drop (i - off)) = true
  | [], _, _, _, h => by simp [greedyMatches] at h
  | c :: t, off, k + 1, i, h => by
    rw [greedyMatches] at h
    obtain ⟨h1, h2⟩ := greedyMatches_sound P t (off + 1) k i h
    refine ⟨by omega, ?_⟩
    have : i - off = (i - (off + 1)) + 1 := by omega
    rw [this, List.drop_succ_cons]
    exact h2
  | c :: t, off, 0, i, h => by
    rw [greedyMatches] at h
    split at h
    · rename_i hm
      rcases List.mem_cons.mp h with rfl | h'
      · exact ⟨by omega, by simpa using hm⟩
      · obtain ⟨h1, h2⟩ := greedyMatches_sound P t (off + 1) _ i h'
        refine ⟨by omega, ?_⟩
        have : i - off = (i - (off + 1)) + 1 := by omega
        rw [this, List.drop_succ_cons]
        exact h2
    · obtain ⟨h1, h2⟩ := greedyMatches_sound P t (off + 1) 0 i h
      refine ⟨by omega, ?_⟩
      have : i - off = (i - (off + 1)) + 1 := by omega
      rw [this, List.drop_succ_cons]
      exact h2

/-- Recorded matches do not overlap: each starts at or after the end of the
one before it. -/
theorem greedyMatches_chain {P : List Nat} (hP : P ≠ []) :
    ∀ (B : List Nat) (off k : Nat),
      (greedyMatches P B off k).Chain' (fun a b => a + P.length ≤ b)
  | [], _, _ => by simp [greedyMatches]
  | c :: t, off, k + 1 => by
    rw [greedyMatches]
    exact greedyMatches_chain hP t (off + 1) k
  | c :: t, off, 0 => by
    rw [greedyMatches]
    split
    · rw [List.chain'_cons']
      refine ⟨?_, greedyMatches_chain hP t (off + 1) _⟩
      intro b hb
      have hmem : b ∈ greedyMatches P t (off + 1) (P.length - 1) := by
        cases hg : greedyMatches P t (off + 1) (P.length - 1) with
        | nil => rw [hg] at hb; simp at hb
        | cons x xs =>
          rw [hg] at hb
          simp only [List.head?_cons, Option.mem_def, Option.some.injEq] at hb
          subst hb
          exact List.mem_cons_self _ _
      have := (greedyMatches_sound P t (off + 1) (P.length - 1) b hmem).1
      have hpos : 0 < P.length := List.length_pos.mpr hP
      omega
    · exact greedyMatches_chain hP t (off + 1) 0

/-- The scan is greedy: every occurrence of the word at or after the cursor
is recorded, or starts inside a recorded match that starts before it. -/
theorem greedyMatches_complete {P : List Nat} (hP : P ≠ []) :
    ∀ (B : List Nat) (off k j : Nat), k ≤ j → P.isPrefixOf (B.drop j) = true →
      ∃ i ∈ greedyMatches P B off k, i ≤ off + j ∧ off + j < i + P.length
  | [], _, _, j, _, h => by rw [isPrefixOf_nil_of_ne hP] at h; cases h
  | c :: t, off, k + 1, j, hk, h => by
    obtain ⟨j', rfl⟩ : ∃ j', j = j' + 1 := ⟨j - 1, by omega⟩
    rw [List.drop_succ_cons] at h
    obtain ⟨i, hi, h1, h2⟩ := greedyMatches_complete hP t (off + 1) k j' (by omega) h
    exact ⟨i, by rw [greedyMatches]; exact hi, by omega, by omega⟩
  | c :: t, off, 0, j, _, h => by
    have hpos : 0 < P.length := List.length_pos.mpr hP
    rw [greedyMatches]
    cases hm : P.isPrefixOf (c :: t) with
    | true =>
      simp only [if_true]
      by_cases hj : j < P.length
      · exact ⟨off, List.mem_cons_self _ _, by omega, by omega⟩
      · obtain ⟨j', rfl⟩ : ∃ j', j = j' + 1 := ⟨j - 1, by omega⟩
        rw [List.drop_succ_cons] at h
        obtain ⟨i, hi, h1, h2⟩ :=
          greedyMatches_complete hP t (off + 1) (P.length - 1) j' (by omega) h
        exact ⟨i, List.mem_cons_of_mem _ hi, by omega, by omega⟩
    | false =>
      simp only [Bool.false_eq_true, if_false]
      cases j with
      | zero => simp [hm] at h
      | succ j' =>
        rw [List.drop_succ_cons] at h
        obtain ⟨i, hi, h1, h2⟩ := greedyMatches_complete hP t (off + 1) 0 j' (by omega) h
        exact ⟨i, hi, by omega, by omega⟩

/-- The greedy scan of a buffer from its start: the recorded offsets are
occurrences of the word, they do not overlap and are in increasing order, and
every occurrence of the word is recorded or overlaps an earlier recorded one. -/
theorem greedyMatches_spec (B P : List Nat) (hP : P ≠ []) :
    (∀ i ∈ greedyMatches P B 0 0, occursAt P B i = true)
    ∧ (greedyMatches P B 0 0).Chain' (fun a b => a + P.length ≤ b)
    ∧ (∀ j, occursAt P B j = true →
        ∃ i ∈ greedyMatches P B 0 0, i ≤ j ∧ j < i + P.length) := by
  refine ⟨?_, greedyMatches_chain hP B 0 0, ?_⟩
  · intro i hi
    have := (greedyMatches_sound P B 0 0 i hi).2
    simpa [occursAt] using this
  · intro j hj
    obtain ⟨i, hi, h1, h2⟩ := greedyMatches_complete hP B 0 0 j (Nat.zero_le _) hj
    exact ⟨i, hi, by omega, by omega⟩

theorem greedyMatches_spec_witness :
    greedyMatches [97, 97] [97, 97, 97, 97, 98, 97, 97] 0 0 = [0, 2, 5]
    ∧ (∀ j, occursAt [97, 97] [97, 97, 97, 97, 98, 97, 97] j = true →
        ∃ i ∈ greedyMatches [97, 97] [97, 97, 97, 97, 98, 97, 97] 0 0, i ≤ j ∧ j < i + 2) :=
  ⟨by decide, (greedyMatches_spec [97, 97, 97, 97, 98, 97, 97] [97, 97] (by decide)).2.2⟩

/-! ## The loop of `count_word_in_buffer` computes the greedy scan -/

/-- With a non-empty word and more fuel than bytes, the loop returns, and it
has added the number of greedy matches of the rest of the buffer. -/
theorem count_word_in_buffer_loop_eq {P : List Nat} (hP : P ≠ []) :
    ∀ (n : Nat) (B : List Nat) (fuel count : Nat), B.length ≤ n → n < fuel →
      count_word_in_buffer_loop P fuel B count = some (count + scanCount P B 0) := by
  intro n
  induction n with
  | zero =>
    intro B fuel count hB hf
    have hB0 : B = [] := List.length_eq_zero.mp (Nat.le_zero.mp hB)
    subst hB0
    obtain ⟨f, rfl⟩ : ∃ f, fuel = f + 1 := ⟨fuel - 1, by omega⟩
    simp [count_word_in_buffer_loop, strstr_nil hP, scanCount_nil]
  | succ n ih =>
    intro B
    induction B with
    | nil =>
      intro fuel count _ hf
      obtain ⟨f, rfl⟩ : ∃ f, fuel = f + 1 := ⟨fuel - 1, by omega⟩
      simp [count_word_in_buffer_loop, strstr_nil hP, scanCount_nil]
    | cons c t iht =>
      intro fuel count hB hf
      obtain ⟨f, rfl⟩ : ∃ f, fuel = f + 1 := ⟨fuel - 1, by omega⟩
      have hlen : t.length ≤ n := by simpa using hB
      have hPlen : 0 < P.length := List.length_pos.mpr hP
      cases hm : P.isPrefixOf (c :: t) with
      | true =>
        rw [count_word_in_buffer_loop, strstr_cons_match hm]
        simp only [strlen]
        have hdrop : (c :: t).drop P.length = t.drop (P.length - 1) := by
          obtain ⟨k, hk⟩ : ∃ k, P.length = k + 1 := ⟨P.length - 1, by omega⟩
          rw [hk]; simp
        rw [hdrop, ih (t.drop (P.length - 1)) f (count + 1)
          (by rw [List.length_drop]; omega) (by omega)]
        rw [scanCount_cons_match hm, scanCount_skip P t (P.length - 1)]
        congr 1; omega
      | false =>
        have hstep : count_word_in_buffer_loop P (f + 1) (c :: t) count
            = count_word_in_buffer_loop P (f + 1) t count := by
          rw [count_word_in_buffer_loop, count_word_in_buffer_loop, strstr_cons_skip hm]
        rw [hstep, scanCount_cons_nomatch hm]
        exact iht (f + 1) count (by omega) (by omega)

/-- The count never exceeds the number of bytes scanned: the `int` counter
stays in range on every buffer of fewer than `2^31` bytes. -/
theorem scanCount_le (P : List Nat) :
    ∀ (B : List Nat) (k : Nat), scanCount P B k ≤ B.length
  | [], k => by simp [scanCount_nil]
  | c :: t, k + 1 => by
    rw [scanCount_cons_skip]
    have := scanCount_le P t k
    simp only [List.length_cons]; omega
  | c :: t, 0 => by
    cases hm : P.isPrefixOf (c :: t) with
    | true =>
      rw [scanCount_cons_match hm]
      have := scanCount_le P t (P.length - 1)
      simp only [List.length_cons]; omega
    | false =>
      rw [scanCount_cons_nomatch hm]
      have := scanCount_le P t 0
      simp only [List.length_cons]; omega

theorem count_word_in_buffer_loop_le {P : List Nat} (hP : P ≠ []) (B : List Nat)
    (fuel count : Nat) (hf : B.length < fuel) :
    ∃ r, count_word_in_buffer_loop P fuel B count = some r ∧ r ≤ count + B.length :=
  ⟨_, count_word_in_buffer_loop_eq hP B.length B fuel count (Nat.le_refl _) hf,
    Nat.add_le_add_left (scanCount_le P B 0) _⟩

/-- The loop with an empty word never leaves: whatever the fuel, no result. -/
theorem count_word_in_buffer_loop_empty :
    ∀ (fuel : Nat) (B : List Nat) (count : Nat),
      count_word_in_buffer_loop [] fuel B count = none
  | 0, _, _ => rfl
  | fuel + 1, B, count => by
    rw [count_word_in_buffer_loop, strstr_empty]
    simp only [strlen, List.length_nil, List.drop_zero]
    exact count_word_in_buffer_loop_empty fuel B (count + 1)

/-- C1. For every NUL-free buffer `B` and every non-empty (NUL-free) pattern
`P`, `count_word_in_buffer(B, P)` returns, given more fuel than `B` has bytes,
and its result is the number of non-overlapping left-to-right matches of `P`
in `B` found by the greedy scan. -/
theorem count_word_in_buffer_eq_nonOverlappingCount (B P : List Nat) (fuel : Nat)
    (hB : ∀ b ∈ B, b ≠ 0) (hP0 : ∀ b ∈ P, b ≠ 0) (hP : P ≠ [])
    (hfuel : B.length < fuel) :
    count_word_in_buffer fuel B P = some (nonOverlappingCount B P) := by
  unfold count_word_in_buffer
  rw [cstr_eq_self hB, cstr_eq_self hP0,
    count_word_in_buffer_loop_eq hP B.length B fuel 0 (Nat.le_refl _) hfuel,
    nonOverlappingCount_eq_scanCount]
  simp

theorem count_word_in_buffer_eq_nonOverlappingCount_witness :
    (∀ b ∈ [97, 97, 97, 97], b ≠ 0) ∧ (∀ b ∈ [97, 97], b ≠ 0) ∧ [97, 97] ≠ []
    ∧ [97, 97, 97, 97].length < 5
    ∧ count_word_in_buffer 5 [97, 97, 97, 97] [97, 97]
      = some (nonOverlappingCount [97, 97, 97, 97] [97, 97])
    ∧ nonOverlappingCount [97, 97, 97, 97] [97, 97] = 2 :=
  ⟨by decide, by decide, by decide, by decide,
    count_word_in_buffer_eq_nonOverlappingCount [97, 97, 97, 97] [97, 97] 5
    (by decide) (by decide) (by decide) (by decide), by decide⟩

/-- C5 (as the code behaves). With an empty pattern `count_word_in_buffer`
never returns: for every buffer and every amount of fuel the loop is still
running, so it does not return 0. -/
theorem count_word_in_buffer_empty_pattern_diverges (B : List Nat) (fuel : Nat) :
    count_word_in_buffer fuel B [] = none ∧ count_word_in_buffer fuel B [] ≠ some 0 := by
  have h : count_word_in_buffer fuel B [] = none := by
    unfold count_word_in_buffer
    simp only [cstr, List.takeWhile_nil]
    exact count_word_in_buffer_loop_empty fuel _ 0
  exact ⟨h, by rw [h]; simp⟩

/-! ## The ranges of `process_file` -/

theorem range_NUM_THREADS : List.range NUM_THREADS = [0, 1, 2, 3] := by decide

theorem thread_data_eq (S : Nat) (word : List Nat) :
    thread_data S word =
      [thread_data_at S word 0, thread_data_at S word 1,
       thread_data_at S word 2, thread_data_at S word 3] := by
  simp [thread_data, range_NUM_THREADS]

/-- C2. For every file size `S` the four ranges of `process_file` start at 0,
end at `S`, each ends where the next starts, each has `start ≤ end ≤ S`, and
every offset below `S` lies in exactly one of them. -/
theorem process_file_ranges_partition (S : Nat) (word : List Nat) :
    ∃ d0 d1 d2 d3 : ThreadData,
      thread_data S word = [d0, d1, d2, d3]
      ∧ d0.start = 0 ∧ d3.end_ = S
      ∧ d0.end_ = d1.start ∧ d1.end_ = d2.start ∧ d2.end_ = d3.start
      ∧ (∀ d ∈ thread_data S word, d.start ≤ d.end_ ∧ d.end_ ≤ S)
      ∧ (∀ x, x < S → ∃! i, i < NUM_THREADS
          ∧ (thread_data_at S word i).start ≤ x ∧ x < (thread_data_at S word i).end_) := by
  refine ⟨_, _, _, _, thread_data_eq S word, ?_, ?_, ?_, ?_, ?_, ?_, ?_⟩
  · simp [thread_data_at]
  · simp [thread_data_at, NUM_THREADS]
  · simp [thread_data_at, NUM_THREADS]
  · simp [thread_data_at, NUM_THREADS]
  · simp [thread_data_at, NUM_THREADS]
  · intro d hd
    rw [thread_data_eq] at hd
    have hdiv : 4 * (S / 4) ≤ S := Nat.mul_div_le S 4
    simp only [List.mem_cons, List.mem_singleton, List.not_mem_nil, or_false] at hd
    rcases hd with rfl | rfl | rfl | rfl <;>
      simp only [thread_data_at, chunk_size, NUM_THREADS] <;> norm_num <;> omega
  · intro x hx
    have hdiv : 4 * (S / 4) ≤ S := Nat.mul_div_le S 4
    have key : ∀ i, (i < NUM_THREADS ∧ (thread_data_at S word i).start ≤ x
        ∧ x < (thread_data_at S word i).end_) ↔
        ((i = 0 ∧ x < S / 4) ∨ (i = 1 ∧ S / 4 ≤ x ∧ x < 2 * (S / 4))
          ∨ (i = 2 ∧ 2 * (S / 4) ≤ x ∧ x < 3 * (S / 4)) ∨ (i = 3 ∧ 3 * (S / 4) ≤ x)) := by
      intro i
      simp only [thread_data_at, chunk_size, NUM_THREADS]
      constructor
      · rintro ⟨hi, h1, h2⟩
        have : i = 0 ∨ i = 1 ∨ i = 2 ∨ i = 3 := by omega
        rcases this with rfl | rfl | rfl | rfl <;> simp at h1 h2 ⊢ <;> omega
      · rintro (⟨rfl, h⟩ | ⟨rfl, h⟩ | ⟨rfl, h⟩ | ⟨rfl, h⟩) <;> simp <;> omega
    by_cases h1 : x < S / 4
    · refine ⟨0, (key 0).2 (Or.inl ⟨rfl, h1⟩), ?_⟩
      intro j hj
      rcases (key j).1 hj with h | h | h | h <;> omega
    · by_cases h2 : x < 2 * (S / 4)
      · refine ⟨1, (key 1).2 (Or.inr (Or.inl ⟨rfl, by omega, h2⟩)), ?_⟩
        intro j hj
        rcases (key j).1 hj with h | h | h | h <;> omega
      · by_cases h3 : x < 3 * (S / 4)
        · refine ⟨2, (key 2).2 (Or.inr (Or.inr (Or.inl ⟨rfl, by omega, h3⟩))), ?_⟩
          intro j hj
          rcases (key j).1 hj with h | h | h | h <;> omega
        · refine ⟨3, (key 3).2 (Or.inr (Or.inr (Or.inr ⟨rfl, by omega⟩))), ?_⟩
          intro j hj
          rcases (key j).1 hj with h | h | h | h <;> omega

/-! ## The accumulator -/

theorem add_local_counts_eq (local_counts : List Nat) :
    ∀ (order : List Nat) (word_count : Nat),
      add_local_counts local_counts order word_count
        = word_count + (order.map (fun i => local_counts.getD i 0)).sum
  | [], wc => by simp [add_local_counts]
  | i :: rest, wc => by
    have ih := add_local_counts_eq local_counts rest (wc + local_counts.getD i 0)
    simp only [add_local_counts, List.foldl_cons, List.map_cons, List.sum_cons] at ih ⊢
    rw [ih]; omega

theorem collect_length :
    ∀ (l : List (Option Nat)) (r : List Nat), collect l = some r → r.length = l.length
  | [], r, h => by simp [collect] at h; simp [← h]
  | none :: t, r, h => by simp [collect] at h
  | some a :: t, r, h => by
    simp only [collect, Option.map_eq_some'] at h
    obtain ⟨l', hl', rfl⟩ := h
    simp [collect_length t l' hl']

theorem sum_getD_range4 (l : List Nat) (h : l.length = 4) :
    ((List.range NUM_THREADS).map (fun i => l.getD i 0)).sum = l.sum := by
  match l, h with
  | [a, b, c, d], _ => simp [range_NUM_THREADS]

/-- Adding the four local counts in any order in which every worker adds once
leaves `word_count` increased by their sum. -/
theorem add_local_counts_perm (local_counts order : List Nat) (word_count : Nat)
    (hlen : local_counts.length = 4) (hperm : order.Perm (List.range NUM_THREADS)) :
    add_local_counts local_counts order word_count = word_count + local_counts.sum := by
  rw [add_local_counts_eq, (hperm.map _).sum_eq, sum_getD_range4 _ hlen]

theorem thread_data_length (S : Nat) (word : List Nat) : (thread_data S word).length = 4 := by
  simp [thread_data_eq]

theorem launch_threads_all {create_ok : Nat → Bool} (h : ∀ j, create_ok j = true) :
    ∀ (l started : List Nat), launch_threads create_ok l started = started ++ l
  | [], started => by simp [launch_threads]
  | j :: rest, started => by
    simp [launch_threads, h j, launch_threads_all h rest]

/-- With every worker started and finished, `process_file` leaves
`word_count` increased by the sum of the four local counts, whatever the
order in which the workers take the mutex. -/
theorem process_file_returns_sum (fuel : Nat) (content word : List Nat)
    (create_ok : Nat → Bool) (order : List Nat) (word_count : Nat) (local_counts : List Nat)
    (hcreate : ∀ j, create_ok j = true)
    (hperm : order.Perm (List.range NUM_THREADS))
    (hc : collect ((thread_data content.length word).map (count_words fuel (some content)))
      = some local_counts) :
    local_counts.length = 4
    ∧ process_file fuel (some content) word create_ok order word_count
        = .returns (word_count + local_counts.sum) := by
  have hall : launch_threads create_ok (List.range NUM_THREADS) [] = List.range NUM_THREADS := by
    rw [launch_threads_all hcreate]; simp
  have hlen : local_counts.length = 4 := by
    rw [collect_length _ _ hc, List.length_map, thread_data_length]
  refine ⟨hlen, ?_⟩
  simp only [process_file, hall, if_true, hc]
  rw [add_local_counts_perm _ _ _ hlen hperm]

/-- The way `process_file` ends does not depend on the order in which the
workers take the mutex. -/
theorem process_file_order_irrelevant (fuel : Nat) (file : Option (List Nat)) (word : List Nat)
    (create_ok : Nat → Bool) (order₁ order₂ : List Nat) (word_count : Nat)
    (h₁ : order₁.Perm (List.range NUM_THREADS)) (h₂ : order₂.Perm (List.range NUM_THREADS)) :
    process_file fuel file word create_ok order₁ word_count
      = process_file fuel file word create_ok order₂ word_count := by
  cases file with
  | none => rfl
  | some content =>
    simp only [process_file]
    split
    · cases hc : collect ((thread_data content.length word).map
          (count_words fuel (some content))) with
      | none => rfl
      | some local_counts =>
        have hlen : local_counts.length = 4 := by
          rw [collect_length _ _ hc, List.length_map, thread_data_length]
        simp only [add_local_counts_perm _ _ _ hlen h₁, add_local_counts_perm _ _ _ hlen h₂]
    · rfl

theorem launch_children_congr (env₁ env₂ : Env)
    (hp : env₁.pipe_ok = env₂.pipe_ok) (hf : env₁.fork_ok = env₂.fork_ok) :
    ∀ (l forked : List Nat), launch_children env₁ l forked = launch_children env₂ l forked
  | [], _ => rfl
  | i :: rest, forked => by
    simp only [launch_children, hp, hf, launch_children_congr env₁ env₂ hp hf rest]

theorem zipWith_congr_left {f g : Nat → String → String × ChildResult}
    (h : ∀ i name, f i name = g i name) :
    ∀ (l : List Nat) (names : List String), l.zipWith f names = l.zipWith g names
  | [], _ => by simp
  | _ :: _, [] => by simp
  | i :: l, name :: names => by
    simp [List.zipWith, h i name, zipWith_congr_left h l names]

/-! ## Every worker returns -/

theorem cstr_length_le (mem : List Nat) : (cstr mem).length ≤ mem.length :=
  (List.takeWhile_sublist _).length_le

theorem readLine_length_le : ∀ (k : Nat) (l : List Nat), (readLine k l).length ≤ l.length
  | 0, l => by simp [readLine]
  | _ + 1, [] => by simp [readLine]
  | k + 1, c :: t => by
    by_cases hc : c = NL
    · simp [readLine, hc]
    · have := readLine_length_le k t
      simp only [readLine, if_neg hc, List.length_cons]
      omega

theorem readLine_length_pos (k c : Nat) (t : List Nat) :
    0 < (readLine (k + 1) (c :: t)).length := by
  by_cases hc : c = NL <;> simp [readLine, hc]

/-- The counter returns on every buffer, given a non-empty word and more fuel
than the buffer has bytes. -/
theorem count_word_in_buffer_returns {word : List Nat} (hw : cstr word ≠ [])
    (buffer : List Nat) (fuel : Nat) (hf : buffer.length < fuel) :
    ∃ c, count_word_in_buffer fuel buffer word = some c := by
  have hlen := cstr_length_le buffer
  exact ⟨_, by
    unfold count_word_in_buffer
    exact count_word_in_buffer_loop_eq hw _ _ fuel 0 (Nat.le_refl _) (by omega)⟩

/-- The read loop returns from every position for every range end, given a
non-empty word and two units of fuel more than the file has bytes left. -/
theorem count_words_loop_returns {word : List Nat} (hw : cstr word ≠ [])
    (F : List Nat) (end_ : Nat) :
    ∀ (n pos local_count fuel : Nat), F.length - pos ≤ n → n + 2 ≤ fuel →
      ∃ r, count_words_loop word F end_ fuel pos local_count = some r := by
  intro n
  induction n with
  | zero =>
    intro pos local_count fuel hn hf
    obtain ⟨f, rfl⟩ : ∃ f, fuel = f + 1 := ⟨fuel - 1, by omega⟩
    have hdrop : F.drop pos = [] := List.drop_eq_nil_of_le (by omega)
    by_cases hpos : pos < end_
    · exact ⟨local_count, by simp [count_words_loop, hpos, fgets, hdrop]⟩
    · exact ⟨local_count, by simp [count_words_loop, hpos]⟩
  | succ n ih =>
    intro pos local_count fuel hn hf
    obtain ⟨f, rfl⟩ : ∃ f, fuel = f + 1 := ⟨fuel - 1, by omega⟩
    by_cases hpos : pos < end_
    · cases hd : F.drop pos with
      | nil => exact ⟨local_count, by simp [count_words_loop, hpos, fgets, hd]⟩
      | cons c t =>
        have hlen : (c :: t).length = F.length - pos := by
          rw [← hd, List.length_drop]
        have hle := readLine_length_le (BUFFER_SIZE - 1) (c :: t)
        have hpos' : 0 < (readLine (BUFFER_SIZE - 1) (c :: t)).length :=
          readLine_length_pos 1022 c t
        obtain ⟨k, hk⟩ := count_word_in_buffer_returns hw
          (readLine (BUFFER_SIZE - 1) (c :: t)) f (by omega)
        obtain ⟨r, hr⟩ := ih (pos + (readLine (BUFFER_SIZE - 1) (c :: t)).length)
          (local_count + k) f (by omega) (by omega)
        exact ⟨r, by
          rw [count_words_loop, if_pos hpos]
          simp only [fgets, hd, hk]
          exact hr⟩
    · exact ⟨local_count, by simp [count_words_loop, hpos]⟩

theorem collect_map_some : ∀ l : List Nat, collect (l.map some) = some l
  | [] => rfl
  | a :: t => by simp [collect, collect_map_some t]

/-- The four workers of a file all return, given a non-empty word and two
units of fuel more than the file has bytes. -/
theorem workers_return {word : List Nat} (hw : cstr word ≠ []) (content : List Nat)
    (fuel : Nat) (hf : content.length + 2 ≤ fuel) :
    ∃ local_counts : List Nat,
      (thread_data content.length word).map (count_words fuel (some content))
        = local_counts.map some := by
  have hret : ∀ d : ThreadData, d.word_to_count = word →
      ∃ r, count_words fuel (some content) d = some r := by
    intro d hd
    simp only [count_words, hd]
    exact count_words_loop_returns hw content d.end_ content.length d.start 0 fuel
      (by omega) hf
  obtain ⟨a, ha⟩ := hret (thread_data_at content.length word 0) rfl
  obtain ⟨b, hb⟩ := hret (thread_data_at content.length word 1) rfl
  obtain ⟨c, hc⟩ := hret (thread_data_at content.length word 2) rfl
  obtain ⟨d, hd⟩ := hret (thread_data_at content.length word 3) rfl
  exact ⟨[a, b, c, d], by simp [thread_data_eq, ha, hb, hc, hd]⟩

/-- C8. In a worker process whose file opens, whose four workers are started
and whose word is not empty, the workers return (given two units of fuel more
than the file has bytes), `word_count` is reset to 0 and, whatever the order
in which the workers take the mutex, `process_file` leaves it at the sum of
the four local counts, which is what the child writes to its pipe. Hence two
runs of `main` on the same word, files and system-call results, which differ
only in the orders in which the workers of each child take the mutex, end
the same way: same per-file lines, same total. -/
theorem word_count_schedule_independent (fuel : Nat) (env : Env)
    (order' : Nat → List Nat) (i : Nat) (name : String) (content : List Nat)
    (h₁ : ∀ k, (env.order k).Perm (List.range NUM_THREADS))
    (h₂ : ∀ k, (order' k).Perm (List.range NUM_THREADS))
    (hfile : env.fs name = some content)
    (hcreate : ∀ j, env.create_ok i j = true)
    (hword : cstr env.word ≠ [])
    (hfuel : content.length + 2 ≤ fuel) :
    ∃ local_counts : List Nat,
      (thread_data content.length env.word).map (count_words fuel (some content))
        = local_counts.map some
      ∧ local_counts.length = NUM_THREADS
      ∧ process_file fuel (some content) env.word (env.create_ok i) (env.order i) 0
          = .returns local_counts.sum
      ∧ process_file fuel (some content) env.word (env.create_ok i) (order' i) 0
          = .returns local_counts.sum
      ∧ child fuel env i name = .wrote local_counts.sum
      ∧ child fuel { env with order := order' } i name = .wrote local_counts.sum
      ∧ main fuel env = main fuel { env with order := order' } := by
  obtain ⟨local_counts, hmap⟩ := workers_return hword content fuel hfuel
  have hc : collect ((thread_data content.length env.word).map
      (count_words fuel (some content))) = some local_counts := by
    rw [hmap, collect_map_some]
  obtain ⟨hlen, e₁⟩ := process_file_returns_sum fuel content env.word (env.create_ok i)
    (env.order i) 0 local_counts hcreate (h₁ i) hc
  obtain ⟨_, e₂⟩ := process_file_returns_sum fuel content env.word (env.create_ok i)
    (order' i) 0 local_counts hcreate (h₂ i) hc
  rw [Nat.zero_add] at e₁ e₂
  refine ⟨local_counts, hmap, hlen, e₁, e₂, ?_, ?_, ?_⟩
  · simp only [child, hfile, e₁]
  · simp only [child, hfile, e₂]
  · have hchild : ∀ k nm, (nm, child fuel env k nm)
        = (nm, child fuel { env with order := order' } k nm) := by
      intro k nm
      simp only [child]
      rw [process_file_order_irrelevant fuel (env.fs nm) env.word (env.create_ok k)
        (env.order k) (order' k) 0 (h₁ k) (h₂ k)]
    simp only [main, main_on, children]
    rw [launch_children_congr env { env with order := order' } rfl rfl,
      zipWith_congr_left hchild]

theorem word_count_schedule_independent_witness :
    (∀ k, (envSchedule.order k).Perm (List.range NUM_THREADS))
    ∧ [2, 0, 3, 1].Perm (List.range NUM_THREADS)
    ∧ envSchedule.fs "paper1.txt" = some [97, 10, 97, 10, 97, 97, 10, 98]
    ∧ (∀ j, envSchedule.create_ok 1 j = true)
    ∧ cstr envSchedule.word ≠ []
    ∧ [97, 10, 97, 10, 97, 97, 10, 98].length + 2 ≤ 10
    ∧ (∃ local_counts : List Nat,
        (thread_data [97, 10, 97, 10, 97, 97, 10, 98].length envSchedule.word).map
            (count_words 10 (some [97, 10, 97, 10, 97, 97, 10, 98]))
          = local_counts.map some
        ∧ local_counts.length = NUM_THREADS
        ∧ process_file 10 (some [97, 10, 97, 10, 97, 97, 10, 98]) envSchedule.word
            (envSchedule.create_ok 1) (envSchedule.order 1) 0 = .returns local_counts.sum
        ∧ process_file 10 (some [97, 10, 97, 10, 97, 97, 10, 98]) envSchedule.word
            (envSchedule.create_ok 1) [2, 0, 3, 1] 0 = .returns local_counts.sum
        ∧ child 10 envSchedule 1 "paper1.txt" = .wrote local_counts.sum
        ∧ child 10 { envSchedule with order := fun _ => [2, 0, 3, 1] } 1 "paper1.txt"
            = .wrote local_counts.sum
        ∧ main 10 envSchedule = main 10 { envSchedule with order := fun _ => [2, 0, 3, 1] })
    ∧ (thread_data 8 [97]).map (count_words 10 (some [97, 10, 97, 10, 97, 97, 10, 98]))
        = [some 1, some 1, some 2, some 0]
    ∧ child 10 { envSchedule with order := fun _ => [2, 0, 3, 1] } 1 "paper1.txt" = .wrote 4 :=
  ⟨fun _ => (by decide : inOrder.Perm (List.range NUM_THREADS)),
    by decide, rfl, fun _ => rfl, by decide, by decide,
    word_count_schedule_independent 10 envSchedule (fun _ => [2, 0, 3, 1]) 1 "paper1.txt"
      [97, 10, 97, 10, 97, 97, 10, 98]
      (fun _ => (by decide : inOrder.Perm (List.range NUM_THREADS)))
      (fun _ => (by decide : [2, 0, 3, 1].Perm (List.range NUM_THREADS)))
      rfl (fun _ => rfl) (by decide) (by decide),
    by decide, by decide⟩

/-! ## The empty file -/

theorem add_local_counts_zeros (order : List Nat) :
    add_local_counts [0, 0, 0, 0] order 0 = 0 := by
  rw [add_local_counts_eq]
  have h : ∀ i : Nat, [0, 0, 0, 0].getD i 0 = 0 := by
    intro i
    match i with
    | 0 | 1 | 2 | 3 => rfl
    | n + 4 => rfl
  simp only [h]
  simp

/-- C6. For the empty file and every pattern, `process_file` divides by the
non-zero constant `NUM_THREADS`, computes `chunk_size = 0` and the four ranges
`[0,0)`; every chunk worker passes no buffer to the counter and adds 0; and
`process_file` returns with `word_count = 0`, whatever the order of the adds. -/
theorem process_file_empty_file (fuel : Nat) (word order : List Nat) (hfuel : 0 < fuel) :
    NUM_THREADS ≠ 0 ∧ chunk_size ([] : List Nat).length = 0
    ∧ thread_data ([] : List Nat).length word = List.replicate 4 ⟨0, 0, word⟩
    ∧ (∀ d ∈ thread_data ([] : List Nat).length word,
        count_words_reads [] d.end_ fuel d.start = []
        ∧ count_words fuel (some []) d = some 0)
    ∧ process_file fuel (some []) word allCreated order 0 = .returns 0 := by
  obtain ⟨f, rfl⟩ : ∃ f, fuel = f + 1 := ⟨fuel - 1, by omega⟩
  have hd : thread_data ([] : List Nat).length word = List.replicate 4 ⟨0, 0, word⟩ := by
    simp [thread_data_eq, thread_data_at, chunk_size, NUM_THREADS, List.replicate]
  have hw : ∀ d ∈ thread_data ([] : List Nat).length word,
      count_words_reads [] d.end_ (f + 1) d.start = []
        ∧ count_words (f + 1) (some []) d = some 0 := by
    intro d hmem
    rw [hd] at hmem
    have := List.eq_of_mem_replicate hmem
    subst this
    simp [count_words_reads, count_words, count_words_loop]
  refine ⟨by decide, by decide, hd, hw, ?_⟩
  have hall : launch_threads allCreated (List.range NUM_THREADS) [] = List.range NUM_THREADS := by
    decide
  have hc : collect ((thread_data ([] : List Nat).length word).map (count_words (f + 1) (some [])))
      = some [0, 0, 0, 0] := by
    rw [hd]
    simp [List.replicate, count_words, count_words_loop, collect]
  simp only [process_file, hall, if_true, hc, add_local_counts_zeros]

theorem process_file_empty_file_witness :
    0 < 1
    ∧ thread_data ([] : List Nat).length [97] = List.replicate 4 ⟨0, 0, [97]⟩
    ∧ process_file 1 (some []) [97] allCreated [3, 1, 0, 2] 0 = .returns 0 :=
  ⟨by decide, (process_file_empty_file 1 [97] [3, 1, 0, 2] (by decide)).2.2.1,
    (process_file_empty_file 1 [97] [3, 1, 0, 2] (by decide)).2.2.2.2⟩

/-! ## The coordinator -/

theorem files_length : files.length = NUM_FILES := rfl

/-- An `int` holds every value from 0 to `INT_MAX` as it is. -/
theorem wrapInt_of_le (n : Nat) (h : n ≤ 2147483647) : wrapInt (n : Int) = (n : Int) := by
  unfold wrapInt
  omega

/-- An `int` always holds a value of the 32-bit range. -/
theorem wrapInt_range (x : Int) : -2147483648 ≤ wrapInt x ∧ wrapInt x ≤ INT_MAX := by
  unfold wrapInt INT_MAX
  omega

theorem sum_map_ofNat : ∀ l : List Nat, (l.map Int.ofNat).sum = ((l.sum : Nat) : Int)
  | [] => rfl
  | c :: t => by
    rw [List.map_cons, List.sum_cons, List.sum_cons, sum_map_ofNat t, Nat.cast_add]
    rfl

/-- While the running total stays at or below `INT_MAX`, the read loop adds
the counts as the integers do. -/
theorem read_results_wrote :
    ∀ (rs : List (String × Nat)) (total : Nat) (printed : List (String × Int)),
      total + (rs.map Prod.snd).sum ≤ 2147483647 →
      read_results (rs.map (fun r => (r.1, ChildResult.wrote r.2))) (total : Int) printed
        = .returned 0 (printed ++ rs.map (fun r => (r.1, (r.2 : Int))))
            ((total + (rs.map Prod.snd).sum : Nat) : Int)
  | [], total, printed, _ => by simp [read_results]
  | (name, n) :: rest, total, printed, h => by
    simp only [List.map_cons, List.sum_cons] at h
    have hn : wrapInt (n : Int) = (n : Int) := wrapInt_of_le n (by omega)
    have ht : wrapInt ((total : Int) + (n : Int)) = ((total + n : Nat) : Int) := by
      rw [← Nat.cast_add]
      exact wrapInt_of_le (total + n) (by omega)
    simp only [List.map_cons, read_results, List.sum_cons, hn, ht]
    rw [read_results_wrote rest (total + n) _ (by omega)]
    simp [Nat.add_assoc]

/-- C7 (the claim as stated fails). Seven children deliver the count
400000000 each, every one a valid `int`. The loop reports the seven counts,
whose sum is 2800000000, but `int total_word_count` wraps on the sixth
addition and `main` ends with the total -1494967296. -/
theorem read_results_total_overflow :
    read_results (files.zip ((List.replicate 7 400000000).map ChildResult.wrote)) 0 []
      = .returned 0 (files.zip (List.replicate 7 400000000)) (-1494967296)
    ∧ ((files.zip (List.replicate 7 (400000000 : Int))).map Prod.snd).sum = 2800000000
    ∧ (-1494967296 : Int) ≠ ((files.zip (List.replicate 7 (400000000 : Int))).map Prod.snd).sum := by
  decide

/-- C7 (amended). For every list of files and every list of as many counts
written by the workers whose sum is at most `INT_MAX`, the aggregation loop
of `main` reports the counts against the files in file order, returns 0, and
its total is the sum of the reported counts. -/
theorem read_results_total (names : List String) (counts : List Nat)
    (hlen : names.length = counts.length) (hsum : (counts.sum : Int) ≤ INT_MAX) :
    read_results (names.zip (counts.map ChildResult.wrote)) 0 []
      = .returned 0 (names.zip (counts.map Int.ofNat)) (counts.sum : Int)
    ∧ (names.zip (counts.map Int.ofNat)).map Prod.fst = names
    ∧ (names.zip (counts.map Int.ofNat)).map Prod.snd = counts.map Int.ofNat
    ∧ ((names.zip (counts.map Int.ofNat)).map Prod.snd).sum = (counts.sum : Int) := by
  have hz : names.zip (counts.map ChildResult.wrote)
      = (names.zip counts).map (fun r => (r.1, ChildResult.wrote r.2)) := by
    rw [List.zip_map_right]
    simp [List.map_map, Function.comp_def, Prod.map]
  have hz' : names.zip (counts.map Int.ofNat)
      = (names.zip counts).map (fun r => (r.1, (r.2 : Int))) := by
    rw [List.zip_map_right]
    simp [List.map_map, Function.comp_def, Prod.map]
  have h2 : (names.zip counts).map Prod.snd = counts := by
    rw [List.map_snd_zip]; omega
  have h1 : (names.zip (counts.map Int.ofNat)).map Prod.fst = names := by
    rw [List.map_fst_zip]; simp; omega
  have h3 : (names.zip (counts.map Int.ofNat)).map Prod.snd = counts.map Int.ofNat := by
    rw [List.map_snd_zip]; simp; omega
  have hcast := sum_map_ofNat counts
  have hs : 0 + ((names.zip counts).map Prod.snd).sum ≤ 2147483647 := by
    rw [h2]
    unfold INT_MAX at hsum
    omega
  refine ⟨?_, h1, h3, by rw [h3, hcast]⟩
  have := read_results_wrote (names.zip counts) 0 [] hs
  rw [hz, hz']
  simpa [h2] using this

theorem read_results_total_witness :
    ["a.txt", "b.txt"].length = [5, 0].length
    ∧ (([5, 0] : List Nat).sum : Int) ≤ INT_MAX
    ∧ read_results (["a.txt", "b.txt"].zip ([5, 0].map ChildResult.wrote)) 0 []
      = .returned 0 [("a.txt", 5), ("b.txt", 0)] 5 :=
  ⟨by decide, by decide, (read_results_total ["a.txt", "b.txt"] [5, 0] (by decide) (by decide)).1⟩

/-- Whenever `main` returns, it returns 0 and has reported one line per
file, in file order. -/
theorem read_results_invariant :
    ∀ (cs : List (String × ChildResult)) (total : Int) (printed : List (String × Int))
      (code : Nat) (printed' : List (String × Int)) (total' : Int),
      read_results cs total printed = .returned code printed' total' →
      code = 0 ∧ printed'.map Prod.fst = printed.map Prod.fst ++ cs.map Prod.fst
  | [], total, printed, code, printed', total', h => by
    simp only [read_results, MainResult.returned.injEq] at h
    obtain ⟨rfl, rfl, rfl⟩ := h
    simp
  | (name, .wrote n) :: rest, total, printed, code, printed', total', h => by
    simp only [read_results] at h
    have := read_results_invariant rest _ _ _ _ _ h
    simpa using this
  | (name, .exited _) :: rest, total, printed, code, printed', total', h => by
    simp only [read_results] at h
    have := read_results_invariant rest _ _ _ _ _ h
    simpa using this
  | (_, .hangs) :: _, _, _, _, _, _, h => by simp [read_results] at h
  | (_, .undefined) :: _, _, _, _, _, _, h => by simp [read_results] at h

/-! ## Failures in the first loop of `main` -/

theorem launch_children_abort (env : Env) :
    ∀ (n s i : Nat) (forked : List Nat), s ≤ i → i < s + n →
      (∀ j, s ≤ j → j < i → env.pipe_ok j = true ∧ env.fork_ok j = true) →
      (env.pipe_ok i = false ∨ env.fork_ok i = false) →
      launch_children env (List.range' s n) forked = .error (forked ++ List.range' s (i - s))
  | 0, s, i, forked, h1, h2, _, _ => by omega
  | n + 1, s, i, forked, h1, h2, hpre, hfail => by
    rw [List.range'_succ, launch_children]
    by_cases hs : s = i
    · subst hs
      rcases hfail with hi | hi
      · simp [hi]
      · cases hp : env.pipe_ok s <;> simp [hi, hp]
    · have hok := hpre s (Nat.le_refl _) (by omega)
      simp only [hok.1, hok.2, if_true]
      rw [launch_children_abort env n (s + 1) i (forked ++ [s]) (by omega) (by omega)
        (fun j hj1 hj2 => hpre j (by omega) hj2) hfail]
      have : i - s = (i - (s + 1)) + 1 := by omega
      rw [this, List.range'_succ]
      simp

/-- When `pipe` or `fork` fails for file `i`, after succeeding for the files
before it, `main` exits with `EXIT_FAILURE` at that point: the children
`0 .. i-1` were forked, no other is, and nothing is reported. -/
theorem main_on_abort (fuel : Nat) (env : Env) (names : List String) (i : Nat)
    (hi : i < names.length)
    (hpre : ∀ j, j < i → env.pipe_ok j = true ∧ env.fork_ok j = true)
    (hfail : env.pipe_ok i = false ∨ env.fork_ok i = false) :
    main_on fuel env names = .aborted EXIT_FAILURE (List.range i) := by
  unfold main_on
  rw [List.range_eq_range', launch_children_abort env names.length 0 i [] (Nat.zero_le _)
    (by omega) (fun j _ hj => hpre j hj) hfail]
  simp [List.range_eq_range']

theorem main_on_abort_witness :
    main 3 { envMissingFile with fork_ok := fun i => i != 2 } = .aborted EXIT_FAILURE [0, 1] :=
  main_on_abort 3 { envMissingFile with fork_ok := fun i => i != 2 } files 2
    (by decide) (by intro j hj; interval_cases j <;> decide) (by decide)

/-- A child whose file cannot be opened exits with `EXIT_FAILURE` and writes
nothing to its pipe. -/
theorem child_missing_file (fuel : Nat) (env : Env) (i : Nat) (name : String)
    (h : env.fs name = none) : child fuel env i name = .exited EXIT_FAILURE := by
  simp [child, process_file, h]

/-- C4 (as the code behaves). With `bib.txt` missing, the child for it exits
with `EXIT_FAILURE`, but the parent reports 0 occurrences for `bib.txt`, goes
on to report the other files and the total, and returns 0 from `main`. -/
theorem main_missing_file_returns_zero :
    envMissingFile.fs "bib.txt" = none
    ∧ child 4 envMissingFile 0 "bib.txt" = .exited EXIT_FAILURE
    ∧ main 4 envMissingFile
      = .returned 0 [("bib.txt", 0), ("paper1.txt", 1), ("paper2.txt", 1), ("progc.txt", 1),
          ("progl.txt", 1), ("progp.txt", 1), ("trans.txt", 1)] 6 := by
  decide

/-- C9 (as the code behaves). When the first `pthread_create` of a worker
process fails, `process_file` does not exit: the launch loop goes on to start
the workers 1, 2 and 3, and the join loop is entered. -/
theorem process_file_create_failure_continues :
    envCreateFails.create_ok 0 0 = false
    ∧ launch_threads (envCreateFails.create_ok 0) (List.range NUM_THREADS) [] = [1, 2, 3]
    ∧ process_file 4 (envCreateFails.fs "bib.txt") envCreateFails.word
        (envCreateFails.create_ok 0) (envCreateFails.order 0) 0 = .undefinedJoin [1, 2, 3]
    ∧ main 4 envCreateFails ≠ .aborted EXIT_FAILURE [] := by
  decide

/-- C3 (as the code behaves). The file is the one line `xab xab xab xab`
(16 bytes with its newline) and the pattern is `ab`. The chunk boundaries 4,
8 and 12 fall on the bytes `x`, inside no occurrence, and the whole file
holds 4 matches. Worker 0, whose range ends at 4, reads the whole line, and
the four workers count 4, 3, 2 and 1: `process_file` leaves `word_count`
at 10. -/
theorem process_file_aligned_split_overcounts :
    alignedSplit [97, 98] fileXab = true
    ∧ count_word_in_buffer 17 fileXab [97, 98] = some 4
    ∧ (thread_data fileXab.length [97, 98]).map (fun d => (d.start, d.end_))
        = [(0, 4), (4, 8), (8, 12), (12, 16)]
    ∧ count_words_reads fileXab 4 17 0 = [fileXab]
    ∧ (thread_data fileXab.length [97, 98]).map
        (count_words 17 (some fileXab))
        = [some 4, some 3, some 2, some 1]
    ∧ process_file 17 (some fileXab) [97, 98]
        allCreated inOrder 0 = .returns 10 := by
  decide

/-- The scenario of the specification: the file `the cat sat on the mat`
(23 bytes with its newline) and the pattern `at`, which occurs 3 times. The
four workers count 3, 3, 1 and 1, and `process_file` leaves `word_count`
at 8. -/
theorem process_file_cat_sat_mat :
    count_word_in_buffer 24 fileCatSatMat [97, 116] = some 3
    ∧ (thread_data fileCatSatMat.length [97, 116]).map
        (count_words 24 (some fileCatSatMat))
        = [some 3, some 3, some 1, some 1]
    ∧ process_file 24 (some fileCatSatMat) [97, 116]
        allCreated inOrder 0 = .returns 8 := by
  decide

/-! ## One worker over the whole file -/

theorem firstLine_append_drop :
    ∀ F : List Nat, firstLine F ++ F.drop (firstLine F).length = F
  | [] => rfl
  | c :: t => by
    by_cases h : c = NL
    · simp [firstLine, h]
    · simp [firstLine, h, firstLine_append_drop t]

theorem firstLine_ne_nil {F : List Nat} (h : F ≠ []) : firstLine F ≠ [] := by
  cases F with
  | nil => exact absurd rfl h
  | cons c t =>
    by_cases hc : c = NL <;> simp [firstLine, hc]

theorem firstLine_shape :
    ∀ F : List Nat, (∃ X, firstLine F = X ++ [NL]) ∨ firstLine F = F
  | [] => Or.inr rfl
  | c :: t => by
    by_cases h : c = NL
    · exact Or.inl ⟨[], by simp [firstLine, h]⟩
    · rcases firstLine_shape t with ⟨X, hX⟩ | ht
      · exact Or.inl ⟨c :: X, by simp [firstLine, h, hX]⟩
      · exact Or.inr (by simp [firstLine, h, ht])

theorem splitLines_eq :
    ∀ F : List Nat, F ≠ [] →
      splitLines F = firstLine F :: splitLines (F.drop (firstLine F).length)
  | [], h => absurd rfl h
  | c :: t, _ => by
    by_cases hc : c = NL
    · simp [splitLines, firstLine, hc]
    · cases t with
      | nil => simp [splitLines, firstLine, hc]
      | cons d u =>
        have ih := splitLines_eq (d :: u) (by simp)
        rw [splitLines, if_neg hc, ih]
        simp [firstLine, hc]

theorem readLine_eq_firstLine :
    ∀ (k : Nat) (F : List Nat), (firstLine F).length ≤ k → readLine k F = firstLine F
  | 0, F, h => by
    have : firstLine F = [] := List.length_eq_zero.mp (Nat.le_zero.mp h)
    simp [readLine, this]
  | k + 1, [], _ => rfl
  | k + 1, c :: t, h => by
    by_cases hc : c = NL
    · simp [readLine, firstLine, hc]
    · simp only [firstLine, if_neg hc, List.length_cons] at h
      simp [readLine, firstLine, hc, readLine_eq_firstLine k t (by omega)]

/-- A word without a newline that starts at a byte of a line ends within the line. -/
theorem isPrefixOf_line :
    ∀ (P X R : List Nat), NL ∉ P →
      P.isPrefixOf (X ++ NL :: R) = P.isPrefixOf (X ++ [NL])
      ∧ (P.isPrefixOf (X ++ [NL]) = true → P.length ≤ X.length)
  | [], X, R, _ => by simp
  | a :: p, [], R, h => by
    have ha : a ≠ NL := fun e => h (by simp [e])
    have hb : (a == NL) = false := by simpa using ha
    simp [List.isPrefixOf, hb]
  | a :: p, x :: X, R, h => by
    have hp : NL ∉ p := fun e => h (List.mem_cons_of_mem _ e)
    have ih := isPrefixOf_line p X R hp
    show (a == x && p.isPrefixOf (X ++ NL :: R)) = (a == x && p.isPrefixOf (X ++ [NL]))
      ∧ ((a == x && p.isPrefixOf (X ++ [NL])) = true → (a :: p).length ≤ (x :: X).length)
    rw [ih.1]
    refine ⟨rfl, fun hh => ?_⟩
    rw [Bool.and_eq_true] at hh
    have h3 := ih.2 hh.2
    simp only [List.length_cons]
    omega

/-- The greedy scan of a line followed by more text is the scan of the line
and then the scan of the text, when the word has no newline. -/
theorem scanCount_line {P : List Nat} (hP : P ≠ []) (hnl : NL ∉ P) (R : List Nat) :
    ∀ (X : List Nat) (k : Nat), k ≤ X.length →
      scanCount P (X ++ NL :: R) k = scanCount P (X ++ [NL]) k + scanCount P R 0
  | [], k, hk => by
    have hk0 : k = 0 := by simpa using hk
    subst hk0
    have h1 := (isPrefixOf_line P [] R hnl).1
    have h2 : P.isPrefixOf ([] ++ [NL]) = false := by
      cases hb : P.isPrefixOf ([] ++ [NL]) with
      | false => rfl
      | true =>
        have h3 := (isPrefixOf_line P [] R hnl).2 hb
        have hpos : 0 < P.length := List.length_pos.mpr hP
        simp only [List.length_nil] at h3; omega
    rw [h2] at h1
    simp only [List.nil_append] at h1 h2 ⊢
    rw [scanCount_cons_nomatch h1, scanCount_cons_nomatch h2, scanCount_nil]
    simp
  | x :: X, k + 1, hk => by
    simp only [List.cons_append, scanCount_cons_skip]
    exact scanCount_line hP hnl R X k (by simpa using hk)
  | x :: X, 0, _ => by
    have h := isPrefixOf_line P (x :: X) R hnl
    simp only [List.cons_append] at h ⊢
    cases hb : P.isPrefixOf (x :: (X ++ [NL])) with
    | true =>
      have hlen := h.2 hb
      rw [hb] at h
      rw [scanCount_cons_match h.1, scanCount_cons_match hb,
        scanCount_line hP hnl R X (P.length - 1) (by simp at hlen; omega)]
      omega
    | false =>
      rw [hb] at h
      rw [scanCount_cons_nomatch h.1, scanCount_cons_nomatch hb]
      exact scanCount_line hP hnl R X 0 (Nat.zero_le _)

/-- The scan of a text is the scan of its first line and then the scan of
the rest, when the word has no newline. -/
theorem scanCount_firstLine {P : List Nat} (hP : P ≠ []) (hnl : NL ∉ P) (F : List Nat) :
    scanCount P F 0
      = scanCount P (firstLine F) 0 + scanCount P (F.drop (firstLine F).length) 0 := by
  rcases firstLine_shape F with ⟨X, hX⟩ | hF
  · have hsplit := firstLine_append_drop F
    rw [hX] at hsplit
    have hF' : F = X ++ NL :: F.drop (firstLine F).length := by
      conv_lhs => rw [← hsplit]
      simp [hX]
    conv_lhs => rw [hF']
    rw [scanCount_line hP hnl _ X 0 (Nat.zero_le _), hX]
  · rw [hF]
    simp [scanCount_nil]

theorem fgets_of_lt {F : List Nat} {pos : Nat} (h : pos < F.length)
    (hline : (firstLine (F.drop pos)).length ≤ BUFFER_SIZE - 1) :
    fgets BUFFER_SIZE F pos
      = some (firstLine (F.drop pos), pos + (firstLine (F.drop pos)).length) := by
  unfold fgets
  cases hd : F.drop pos with
  | nil =>
    have := congrArg List.length hd
    simp at this; omega
  | cons c t =>
    rw [hd] at hline
    simp only [readLine_eq_firstLine _ _ hline]

theorem splitLines_example :
    splitLines [97, 10, 10, 98, 99, 10, 100] = [[97, 10], [10], [98, 99, 10], [100]] := by
  decide

/-- The read loop of one worker over the rest of the file, from `pos` to
the end of the file, returns and has added the greedy count of that rest. -/
theorem count_words_loop_eq {F P : List Nat}
    (hF : ∀ b ∈ F, b ≠ 0) (hP : P ≠ []) (hP0 : ∀ b ∈ P, b ≠ 0) (hnl : NL ∉ P) :
    ∀ (n pos local_count fuel : Nat), F.length - pos ≤ n → n + 2 ≤ fuel →
      (∀ l ∈ splitLines (F.drop pos), l.length ≤ BUFFER_SIZE - 1) →
      count_words_loop P F F.length fuel pos local_count
        = some (local_count + scanCount P (F.drop pos) 0) := by
  intro n
  induction n with
  | zero =>
    intro pos local_count fuel hn hf _
    obtain ⟨f, rfl⟩ : ∃ f, fuel = f + 1 := ⟨fuel - 1, by omega⟩
    have hpos : ¬ pos < F.length := by omega
    have hdrop : F.drop pos = [] := List.drop_eq_nil_of_le (by omega)
    simp [count_words_loop, hpos, hdrop, scanCount_nil]
  | succ n ih =>
    intro pos local_count fuel hn hf hlines
    obtain ⟨f, rfl⟩ : ∃ f, fuel = f + 1 := ⟨fuel - 1, by omega⟩
    by_cases hpos : pos < F.length
    · have hne : F.drop pos ≠ [] := by
        intro h
        have := congrArg List.length h
        simp at this; omega
      have hsl := splitLines_eq (F.drop pos) hne
      have hline : (firstLine (F.drop pos)).length ≤ BUFFER_SIZE - 1 :=
        hlines _ (by rw [hsl]; exact List.mem_cons_self _ _)
      have hL0 : ∀ b ∈ firstLine (F.drop pos), b ≠ 0 := by
        intro b hb
        apply hF
        have h1 : b ∈ firstLine (F.drop pos) ++ (F.drop pos).drop (firstLine (F.drop pos)).length :=
          List.mem_append_left _ hb
        rw [firstLine_append_drop] at h1
        exact List.mem_of_mem_drop h1
      have hLlen : (firstLine (F.drop pos)).length ≤ F.length - pos := by
        have h1 := congrArg List.length (firstLine_append_drop (F.drop pos))
        simp only [List.length_append, List.length_drop] at h1
        omega
      have hLpos : 0 < (firstLine (F.drop pos)).length :=
        List.length_pos.mpr (firstLine_ne_nil hne)
      have hinner : count_word_in_buffer f (firstLine (F.drop pos)) P
          = some (scanCount P (firstLine (F.drop pos)) 0) := by
        unfold count_word_in_buffer
        rw [cstr_eq_self hL0, cstr_eq_self hP0,
          count_word_in_buffer_loop_eq hP _ _ f 0 (Nat.le_refl _) (by omega)]
        simp
      rw [count_words_loop, if_pos hpos, fgets_of_lt hpos hline]
      simp only [hinner]
      rw [ih (pos + (firstLine (F.drop pos)).length) _ f (by omega) (by omega)
        (by
          intro l hl
          apply hlines l
          rw [hsl, List.drop_drop]
          exact List.mem_cons_of_mem _ hl)]
      rw [scanCount_firstLine hP hnl (F.drop pos), List.drop_drop]
      simp [Nat.add_assoc]
    · have hdrop : F.drop pos = [] := List.drop_eq_nil_of_le (by omega)
      simp [count_words_loop, hpos, hdrop, scanCount_nil]

/-- C10. For every NUL-free file `F` whose lines, newline included, have at
most `BUFFER_SIZE - 1` bytes, and every non-empty (NUL-free) pattern `P`
without a newline, one chunk worker run on the range `[0, size(F))` returns,
given `size(F) + 2` units of fuel, and its local count is the result of
`count_word_in_buffer(F, P)`, the greedy count over the whole file. -/
theorem count_words_whole_file (F P : List Nat) (fuel : Nat)
    (hF : ∀ b ∈ F, b ≠ 0)
    (hlines : ∀ l ∈ splitLines F, l.length ≤ BUFFER_SIZE - 1)
    (hP : P ≠ []) (hP0 : ∀ b ∈ P, b ≠ 0) (hnl : NL ∉ P)
    (hfuel : F.length + 2 ≤ fuel) :
    count_words fuel (some F) ⟨0, F.length, P⟩ = some (nonOverlappingCount F P)
    ∧ count_word_in_buffer fuel F P = some (nonOverlappingCount F P) := by
  constructor
  · simp only [count_words]
    rw [count_words_loop_eq hF hP hP0 hnl F.length 0 0 fuel (by omega) hfuel
      (by simpa using hlines)]
    simp [nonOverlappingCount_eq_scanCount]
  · unfold count_word_in_buffer
    rw [cstr_eq_self hF, cstr_eq_self hP0,
      count_word_in_buffer_loop_eq hP F.length F fuel 0 (Nat.le_refl _) (by omega),
      nonOverlappingCount_eq_scanCount]
    simp

theorem count_words_whole_file_witness :
    (∀ b ∈ [97, 98, 10, 99, 97, 98, 97, 98, 10, 97], b ≠ 0)
    ∧ (∀ l ∈ splitLines [97, 98, 10, 99, 97, 98, 97, 98, 10, 97], l.length ≤ BUFFER_SIZE - 1)
    ∧ [97, 98] ≠ [] ∧ (∀ b ∈ [97, 98], b ≠ 0) ∧ NL ∉ [97, 98]
    ∧ [97, 98, 10, 99, 97, 98, 97, 98, 10, 97].length + 2 ≤ 12
    ∧ count_words 12 (some [97, 98, 10, 99, 97, 98, 97, 98, 10, 97])
        ⟨0, [97, 98, 10, 99, 97, 98, 97, 98, 10, 97].length, [97, 98]⟩
      = some (nonOverlappingCount [97, 98, 10, 99, 97, 98, 97, 98, 10, 97] [97, 98])
    ∧ nonOverlappingCount [97, 98, 10, 99, 97, 98, 97, 98, 10, 97] [97, 98] = 3 :=
  ⟨by decide, by decide, by decide, by decide, by decide, by decide,
    (count_words_whole_file [97, 98, 10, 99, 97, 98, 97, 98, 10, 97] [97, 98] 12
      (by decide) (by decide) (by decide) (by decide) (by decide) (by decide)).1,
    by decide⟩

end WordCount
